import Mathlib

/-!
A verification development for the repo-quest core (`rq-core`), a guided-learning
engine. The Rust sources are shallowly embedded: pure functions become Lean
functions, external effects (git processes, the GitHub API) become explicit
oracles or op traces, panics become `Option.none`, and `anyhow` errors become
`Except`. Rust strings are modelled as `String` / `List Char`; byte offsets in
`replace_many_ranges` are modelled as character offsets (all placeholder
delimiters are ASCII, where the two coincide).
-/

namespace RepoQuest

/-! ## Stages (src/rs/crates/rq-core/src/stage.rs) -/

/-- `StagePart` from stage.rs: the two halves of a chapter.
Derived `Ord` in Rust is declaration order: `Starter < Solution`. -/
inductive StagePart where
  | Starter
  | Solution
deriving DecidableEq, Repr

/-- `StagePartStatus` from stage.rs. -/
inductive StagePartStatus where
  | Start
  | Ongoing
deriving DecidableEq, Repr

/-- `StagePart::next_part`. -/
def StagePart.next_part : StagePart → Option StagePart
  | .Starter => some .Solution
  | .Solution => none

/-- `StagePart::parse` from stage.rs: `"a"` is Starter, `"b"` is Solution,
anything else is `None`. -/
def StagePart.parse (s : String) : Option StagePart :=
  if s = "a" then some .Starter
  else if s = "b" then some .Solution
  else none

/-- The `Display` impl for `StagePart`: `Starter` renders as `"a"`,
`Solution` as `"b"`. -/
def StagePart.render : StagePart → String
  | .Starter => "a"
  | .Solution => "b"

/-- `Stage` from stage.rs (the serde fields). -/
structure Stage where
  label : String
  name : String
  no_starter : Option Bool
deriving DecidableEq, Repr

/-- `Stage::no_starter` (the accessor): `no_starter.unwrap_or(false)`. -/
def Stage.noStarterFlag (s : Stage) : Bool :=
  s.no_starter.getD false

/-- `Stage::branch_name`: `format!("{}-{}", label, part)`. -/
def Stage.branch_name (s : Stage) (part : StagePart) : String :=
  s.label ++ "-" ++ part.render

/-! ## Quest skip prelude (src/rs/crates/rq-core/src/quest.rs, `skip_to_stage`) -/

/-- Rust (debug) semantics for `usize` subtraction: underflow panics,
modelled as `none`. -/
def checkedSub (a b : Nat) : Option Nat :=
  if b ≤ a then some (a - b) else none

/-- `Quest::stage`: `&self.config.stages[idx]`; an out-of-range index
panics, modelled as `none`. -/
def stageLookup (stages : List Stage) (idx : Nat) : Option Stage :=
  stages.get? idx

/-- The panicking prelude of `Quest::skip_to_stage`: the computation
`self.stage(stage_index - 1)`.  `none` means the call panics (either by
underflow at `stage_index - 1` or by an out-of-range stage lookup). -/
def skipToStagePrev (stages : List Stage) (stage_index : Nat) : Option Stage :=
  (checkedSub stage_index 1).bind (stageLookup stages)

/-! ## Quest state inference (src/rs/crates/rq-core/src/quest.rs) -/

/-- `QuestState` from quest.rs. -/
inductive QuestState where
  | Ongoing (stage : Nat) (part : StagePart) (status : StagePartStatus)
  | Completed
deriving DecidableEq, Repr

/-- One element of the iterator `pr_stages.chain(issue_stages)` after mapping
the stage through `stage_idx`: `(chapter index, part, finished)`. -/
abbrev StateTuple := Nat × StagePart × Bool

/-- Rank of `StagePart` under its derived `Ord` (`Starter < Solution`). -/
def partRank : StagePart → Nat
  | .Starter => 0
  | .Solution => 1

/-- Rank of `bool` under Rust `Ord` (`false < true`). -/
def boolRank : Bool → Nat
  | false => 0
  | true => 1

/-- The key `(stage_idx(stage), part, finished)` used by `max_by_key`,
flattened to naturals. -/
def tupleKey (t : StateTuple) : Nat × Nat × Nat :=
  (t.1, partRank t.2.1, boolRank t.2.2)

/-- Lexicographic `≤` on flattened keys: Rust tuple `Ord` is lexicographic. -/
def keyLe (a b : Nat × Nat × Nat) : Prop :=
  a.1 < b.1 ∨ (a.1 = b.1 ∧ (a.2.1 < b.2.1 ∨ (a.2.1 = b.2.1 ∧ a.2.2 ≤ b.2.2)))

instance (a b : Nat × Nat × Nat) : Decidable (keyLe a b) := by
  unfold keyLe
  infer_instance

/-- Lexicographic `≤` on state tuples (Rust derived `Ord` on
`(usize, StagePart, bool)`). -/
def tupleLe (a b : StateTuple) : Prop := keyLe (tupleKey a) (tupleKey b)

instance (a b : StateTuple) : Decidable (tupleLe a b) := by
  unfold tupleLe
  infer_instance

/-- One step of Rust `Iterator::max_by_key` (`if key(old) ≤ key(new)` the new
element is kept, so ties favour the later element). -/
def maxStep (acc : Option StateTuple) (t : StateTuple) : Option StateTuple :=
  match acc with
  | none => some t
  | some m => if tupleLe m t then some t else some m

/-- `Iterator::max_by_key` over the chained tuple iterator: `none` iff the
iterator is empty, otherwise the (last) maximal element. -/
def max_by_key (l : List StateTuple) : Option StateTuple :=
  l.foldl maxStep none

/-- Steps 5–6 of `Quest::infer_state`: the final state computed from the
collected `(chapter index, part, finished)` tuples, given the number of
stages in the config. -/
def inferStateStep (numStages : Nat) (tuples : List StateTuple) : QuestState :=
  match max_by_key tuples with
  | none => .Ongoing 0 .Starter .Start
  | some (stage, part, finished) =>
    if finished then
      match part.next_part with
      | some next => .Ongoing stage next .Start
      | none =>
        if stage = numStages - 1 then .Completed
        else .Ongoing (stage + 1) .Starter .Start
    else .Ongoing stage part .Ongoing

/-! ## Pull parsing and tuple formation (Quest::parse_stage, pr_stages) -/

/-- The fields of a fetched pull used by `infer_state`:
`pr.head.ref_field` and `pr.merged_at.is_some()`. -/
structure PullInfo where
  headRef : String
  merged : Bool
deriving DecidableEq, Repr

/-- The capture of the regex `^(.*)-([abc])$` on a branch name.  Since the
pattern is anchored at both ends and `([abc])` is a single character class, a
match exists iff the branch ends in `-a`, `-b` or `-c`; the greedy `(.*)`
captures everything before that final dash. -/
def regexCaptureBranch (branch : String) : Option (String × String) :=
  match branch.data.reverse with
  | c :: '-' :: rest =>
    if c = 'a' ∨ c = 'b' ∨ c = 'c' then some (⟨rest.reverse⟩, ⟨[c]⟩) else none
  | _ => none

/-- The `label → index` table built in `Quest::load_core`
(`stage_index`): a `HashMap` collected from the enumerated stages, so for a
duplicate label the later stage wins. -/
def stage_index_get (stages : List Stage) (name : String) : Option Nat :=
  ((stages.enum.filter (fun p => p.2.label = name)).getLast?).map (·.1)

/-- `Quest::parse_stage`: capture the branch against `^(.*)-([abc])$`, look
the captured name up in `stage_index`, and parse the part.  The final stage
lookup `self.stage(*stage)` cannot be out of range because `stage_index` is
built from the same list. -/
def parse_stage (stages : List Stage) (branch : String) : Option (Stage × StagePart) :=
  match regexCaptureBranch branch with
  | none => none
  | some (name, partStr) =>
    match stage_index_get stages name with
    | none => none
    | some idx =>
      match StagePart.parse partStr with
      | none => none
      | some part => (stages.get? idx).map (fun s => (s, part))

/-- The body of the `pr_stages` closure in `Quest::infer_state`: the tuple a
single fetched pull contributes.  `issueClosed` is the lookup
`issue_map.get(label).map(|i| matches!(i.state, Closed))`; note the `?` on
that lookup sits inside the right operand of the short-circuiting `&&`, so it
only fires when the pull is merged and the part is `Solution`. -/
def prStage (stages : List Stage) (issueClosed : String → Option Bool)
    (pr : PullInfo) : Option (Stage × StagePart × Bool) :=
  match parse_stage stages pr.headRef with
  | none => none
  | some (stage, part) =>
    if pr.merged then
      match part with
      | .Solution =>
        match issueClosed stage.label with
        | none => none
        | some closed => some (stage, part, closed)
      | .Starter => some (stage, part, true)
    else some (stage, part, false)

/-! ## The patch engine (src/rs/crates/rq-core/src/git.rs,
src/rs/crates/rq-core/src/template.rs, src/rs/crates/rq-core/src/package.rs) -/

/-- `MergeType` from git.rs. -/
inductive MergeType where
  | Success
  | SolutionReset
  | StarterReset
deriving DecidableEq, Repr

/-- One observable git side effect of the patch engine. -/
inductive GitOp where
  | applyOp (patch : String)
  | resetHard (ref : String)
  | addAll
  | commitOp (msg : String)
deriving DecidableEq, Repr

/-- A working tree (abstract) plus the trace of git operations performed so
far, in execution order. -/
structure GitState (Tree : Type) where
  tree : Tree
  log : List GitOp

/-- `GitRepo::apply` (`git apply -` fed the patch text): `applyFn` is the
external `git apply` oracle — `none` means the patch does not apply to the
current tree, in which case the tree is unchanged and an error is returned. -/
def gitApply {Tree : Type} (applyFn : Tree → String → Option Tree)
    (st : GitState Tree) (patch : String) : Except String (GitState Tree) :=
  match applyFn st.tree patch with
  | some t => .ok ⟨t, st.log ++ [.applyOp patch]⟩
  | none => .error "git apply failed"

/-- `GitRepo::apply_patch`.  The outer `Option` models the panic of
`patches.last().unwrap()` on an empty slice (`none` = panic); the `Except`
models the `anyhow` error when a replayed patch fails after the reset.
`initialTree` is the tree at the `initial` tag. -/
def apply_patch_git {Tree : Type} (applyFn : Tree → String → Option Tree)
    (initialTree : Tree) (st : GitState Tree) (patches : List String) :
    Option (Except String (GitState Tree × MergeType)) :=
  match patches.getLast? with
  | none => none
  | some last =>
    let res : Except String (GitState Tree × MergeType) :=
      match gitApply applyFn st last with
      | .ok st1 => .ok (st1, .Success)
      | .error _ =>
        let st1 : GitState Tree := ⟨initialTree, st.log ++ [.resetHard "initial"]⟩
        (patches.foldlM (gitApply applyFn) st1).map (fun st2 => (st2, .StarterReset))
    some (res.map (fun p =>
      (⟨p.1.tree, p.1.log ++ [.addAll, .commitOp "Starter code"]⟩, p.2)))

/-- `Patch` from package.rs. -/
structure Patch where
  base : String
  head : String
  patch : String
deriving DecidableEq, Repr

/-- The derived `(base, head) → patch_index` map rebuilt in
`QuestPackage::deserialize`: a `HashMap` collected from the enumerated patch
list, so for a duplicate key the later patch wins. -/
def patchMapOf (patches : List Patch) (key : String × String) : Option Nat :=
  ((patches.enum.filter (fun p => p.2.base = key.1 ∧ p.2.head = key.2)).getLast?).map (·.1)

/-- `PackageTemplate::apply_patch`: look the `(base, head)` pair up in the
package's patch map; a missing patch is an `anyhow` error.  The slice
`patches[..=patch_index]` panics (outer `none`) if the index is out of range;
the selected chain is handed to `GitRepo::apply_patch`. -/
def package_apply_patch {Tree : Type} (applyFn : Tree → String → Option Tree)
    (initialTree : Tree) (st : GitState Tree) (patches : List Patch)
    (patchMap : String × String → Option Nat) (base_branch target_branch : String) :
    Option (Except String (GitState Tree × MergeType)) :=
  match patchMap (base_branch, target_branch) with
  | none => some (.error "Missing patch in package")
  | some k =>
    if k < patches.length then
      apply_patch_git applyFn initialTree st ((patches.take (k + 1)).map (·.patch))
    else none

/-! ## Package building (src/rs/crates/rq-core/src/package.rs) -/

/-- `QuestConfig` from quest.rs (the fields `QuestPackage::build` uses). -/
structure QuestConfig where
  title : String
  author : String
  repo : String
  stages : List Stage
deriving DecidableEq, Repr

/-- The patch-list computation in `QuestPackage::build`: enumerate the
config's stages, keep those whose `no_starter` is not `Some(true)`, and for
each compute `base` (the previous stage's solution branch, or `"main"` at
index 0) and `head` (this stage's starter branch).  `diffFn` is the external
`git diff base..head` oracle.  The Rust indexing `config.stages[i - 1]`
cannot be out of range since `i` comes from the enumeration, so the `get?`
never falls through to the `"main"` arm for `i > 0`. -/
def buildPatches (diffFn : String → String → String) (stages : List Stage) : List Patch :=
  (stages.enum.filter (fun p => !(p.2.no_starter == some true))).map
    (fun p =>
      let base := match (if p.1 > 0 then stages.get? (p.1 - 1) else none) with
        | some prev => prev.branch_name .Solution
        | none => "main"
      let head := p.2.branch_name .Starter
      { base := base, head := head, patch := diffFn base head })

/-- A semantic version `major.minor.patch`. -/
structure SemVer where
  major : Nat
  minor : Nat
  patchv : Nat
deriving DecidableEq, Repr

/-- The semver caret requirement `^req` matched against `v`: `v` must be at
least `req` (lexicographically) and below the next breaking version (same
major; same minor when major is 0; exact when major and minor are 0). -/
def caretMatches (req v : SemVer) : Bool :=
  (decide (req.major < v.major) ||
    (req.major == v.major &&
      (decide (req.minor < v.minor) ||
        (req.minor == v.minor && decide (req.patchv ≤ v.patchv))))) &&
  (if req.major > 0 then v.major == req.major
   else if req.minor > 0 then v.major == 0 && v.minor == req.minor
   else v.major == 0 && v.minor == 0 && v.patchv == req.patchv)

/-- The serde-visible fields of `QuestPackage` (the private `patch_map`
field is `#[serde(skip)]` and rebuilt on load).  `Payload` stands for the
remaining payload (issues, pulls, initial file tree, labels), which the
version gate never inspects. -/
structure QuestPackageData (Payload : Type) where
  version : SemVer
  config : QuestConfig
  patches : List Patch
  payload : Payload

/-- `QuestPackage::deserialize`: the gzip decoder and serde-JSON reader are
the external `parse` oracle (`Err` models malformed gzip or JSON); on
success the `(base, head) → index` patch map is rebuilt, and the version is
checked against the compile-time requirement `^engineVersion` — a mismatch
only emits a `tracing::warn!` (returned here as a `Bool` flag), never an
error. -/
def package_deserialize {Blob Payload : Type}
    (parse : Blob → Except String (QuestPackageData Payload))
    (engineVersion : SemVer) (blob : Blob) :
    Except String ((QuestPackageData Payload × (String × String → Option Nat)) × Bool) :=
  match parse blob with
  | .error e => .error e
  | .ok pkg =>
    let warned := !(caretMatches engineVersion pkg.version)
    .ok ((pkg, patchMapOf pkg.patches), warned)

/-! ## The GitHub adapter (src/rs/crates/rq-core/src/github.rs) -/

/-- The fields of a review comment (`pulls::Comment`) used by `copy_pr`. -/
structure ReviewComment where
  path : String
  body : String
  line : Nat
deriving DecidableEq, Repr

/-- The fields of `PullRequest` used by `copy_pr` and the caches.  Labels
are kept as their names (the code maps `label.name` out before use). -/
structure PullRequestData where
  number : Nat
  title : Option String
  body : Option String
  headRef : String
  labels : Option (List String)
deriving DecidableEq, Repr

/-- `FullPullRequest` from github.rs: pull data plus review comments. -/
structure FullPullRequest where
  data : PullRequestData
  comments : List ReviewComment
deriving DecidableEq, Repr

/-- The notice `copy_pr` appends on `SolutionReset`. -/
def solutionResetNotice : String :=
  "\n\nNote: due to a merge conflict, this PR is a hard reset to the reference solution, and may have overwritten your previous changes."

/-- The notice `copy_pr` appends on `StarterReset`. -/
def starterResetNotice : String :=
  "\n\nNote: due to a merge conflict, this PR is a hard reset to the starter code, and may have overwritten your previous changes."

/-- The `RESET_LABEL` constant. -/
def RESET_LABEL : String := "reset"

/-- The observable effects of `GithubRepo::copy_pr`: the created pull's
fields, the labels added to it, and the review comments posted (as
`(path, commit_id, body, line)`, the fields of the POST body). -/
structure CreatedPull where
  title : String
  head : String
  base : String
  body : String
  labelsAdded : List String
  commentsPosted : List (String × String × String × Nat)
deriving DecidableEq, Repr

/-- `GithubRepo::copy_pr`: `none` models the `expect` panics on a missing
body or title.  The base of the created pull is hard-coded to `"main"`; on
`StarterReset`/`SolutionReset` the body gets the conflict notice and the
label list gets an extra `reset` entry; every review comment is re-posted
anchored at the supplied `head` commit. -/
def copy_pr (pr : FullPullRequest) (head : String) (mt : MergeType) : Option CreatedPull :=
  match pr.data.body with
  | none => none
  | some body0 =>
    let body := match mt with
      | .SolutionReset => body0 ++ solutionResetNotice
      | .StarterReset => body0 ++ starterResetNotice
      | .Success => body0
    let is_reset := match mt with
      | .SolutionReset => true
      | .StarterReset => true
      | .Success => false
    match pr.data.title with
    | none => none
    | some title =>
      let labels0 := (pr.data.labels).getD []
      let labels := if is_reset then labels0 ++ [RESET_LABEL] else labels0
      some { title := title, head := pr.data.headRef, base := "main", body := body,
             labelsAdded := labels,
             commentsPosted := pr.comments.map (fun c => (c.path, head, c.body, c.line)) }

/-! ## Issue-body substitution (github.rs `process_issue_body`,
repo-quest/src/utils.rs `replace_many_ranges`) -/

/-- The fields of `Issue` used by the caches and the substitution pass. -/
structure IssueData where
  number : Nat
  title : String
  body : Option String
  labels : List String
  closed : Bool
deriving DecidableEq, Repr

/-- The cached snapshots of a `GithubRepo` (`prs` and `issues`, populated). -/
structure GithubRepoCache where
  prs : List FullPullRequest
  issues : List IssueData
deriving Repr

/-- `find_pr` with a `PullSelector::Label`: the first pull whose label list
contains the label (a pull with no label list never matches). -/
def findPrByLabel (prs : List FullPullRequest) (label : String) : Option FullPullRequest :=
  prs.find? (fun pr => ((pr.data.labels).map (fun ls => ls.contains label)).getD false)

/-- `find_issue`: the first issue whose label list contains the name. -/
def findIssueByLabel (issues : List IssueData) (label : String) : Option IssueData :=
  issues.find? (fun i => i.labels.contains label)

/-- The ASCII character class of the regex `\s` (the placeholder grammar is
ASCII, so the Unicode extension of `\s` is not modelled). -/
def regexSpaceChar (c : Char) : Bool :=
  c = ' ' ∨ c = '\t' ∨ c = '\n' ∨ c = '\x0b' ∨ c = '\x0c' ∨ c = '\r'

/-- Split off the maximal leading `\S+` run. -/
def takeNonspace : List Char → List Char × List Char
  | [] => ([], [])
  | c :: cs =>
    if regexSpaceChar c then ([], c :: cs)
    else (c :: (takeNonspace cs).1, (takeNonspace cs).2)

/-- A match of the regex `\{\{ (\S+) (\S+) \}\}` anchored at the head of
`s`: returns the two captures and the remainder after the match.  Both
`(\S+)` captures are forced to be full maximal non-space runs, because each
is followed by a literal space in the pattern.  Returns the leftmost-longest
(here: unique) match at this position, as the regex engine does. -/
def matchAt (s : List Char) : Option (List Char × List Char × List Char) :=
  match s with
  | c1 :: c2 :: c3 :: r =>
    if c1 = '{' ∧ c2 = '{' ∧ c3 = ' ' then
      let a := (takeNonspace r).1
      let r1 := (takeNonspace r).2
      if a = [] then none
      else
        match r1 with
        | c4 :: r2 =>
          if c4 = ' ' then
            let b := (takeNonspace r2).1
            let r3 := (takeNonspace r2).2
            if b = [] then none
            else
              match r3 with
              | c5 :: c6 :: c7 :: r4 =>
                if c5 = ' ' ∧ c6 = '}' ∧ c7 = '}' then some (a, b, r4) else none
              | _ => none
          else none
        | _ => none
    else none
  | _ => none

/-- `format!("#{number}")`, as characters. -/
def numToChars (n : Nat) : List Char := (Nat.repr n).data

/-- The body of the `captures_iter` closure in `process_issue_body`:
`none` models the `unimplemented!()` panic on a kind other than
`pr`/`issue`; `some none` is the logged warning (referent not found, no
substitution); `some (some repl)` substitutes the replacement text. -/
def substNumber (cache : GithubRepoCache) (label kind : List Char) :
    Option (Option (List Char)) :=
  if kind = "pr".data then
    match findPrByLabel cache.prs ⟨label⟩ with
    | none => some none
    | some pr => some (some ('#' :: numToChars pr.data.number))
  else if kind = "issue".data then
    match findIssueByLabel cache.issues ⟨label⟩ with
    | none => some none
    | some issue => some (some ('#' :: numToChars issue.number))
  else none

/-- The `captures_iter` scan of `process_issue_body`, producing the
substitution list handed to `replace_many_ranges`: ranges are absolute
offsets into the scanned text, in match order (ascending).  The regex engine
finds the leftmost match, then continues after its end, so the scan advances
one position on no match and past the whole match otherwise.  `fuel` is an
upper bound on the text length making the recursion structural; every entry
point passes `s.length`. -/
def scanSubsts (cache : GithubRepoCache) :
    Nat → List Char → Option (List ((Nat × Nat) × List Char))
  | 0, _ => some []
  | _ + 1, [] => some []
  | fuel + 1, c :: cs =>
    match matchAt (c :: cs) with
    | some (a, b, rest) =>
      let len := a.length + b.length + 7
      match substNumber cache a b with
      | none => none
      | some res =>
        match scanSubsts cache fuel rest with
        | none => none
        | some tail =>
          let shifted := tail.map (fun r => ((r.1.1 + len, r.1.2 + len), r.2))
          match res with
          | none => some shifted
          | some repl => some (((0, len), repl) :: shifted)
    | none =>
      match scanSubsts cache fuel cs with
      | none => none
      | some tail => some (tail.map (fun r => ((r.1.1 + 1, r.1.2 + 1), r.2)))

/-- `String::replace_range`: splice `content` over the half-open range
`[start, stop)` (char offsets; the placeholder text is ASCII so these agree
with the byte offsets of the Rust code). -/
def replaceRange (s : List Char) (start stop : Nat) (content : List Char) : List Char :=
  s.take start ++ content ++ s.drop stop

/-- `replace_many_ranges` from utils.rs: the ranges arrive in ascending
order (the debug assertion) and are applied right-to-left so earlier offsets
stay valid. -/
def replace_many_ranges (s : List Char)
    (ranges : List ((Nat × Nat) × List Char)) : List Char :=
  (ranges.reverse).foldl (fun acc r => replaceRange acc r.1.1 r.1.2 r.2) s

/-- `GithubRepo::process_issue_body`: scan the body for placeholders,
resolve them against this repo's caches, and apply the substitutions.
`none` models the `unimplemented!()` panic on an unknown placeholder kind. -/
def process_issue_body (cache : GithubRepoCache) (body : List Char) : Option (List Char) :=
  match scanSubsts cache body.length body with
  | none => none
  | some subs => some (replace_many_ranges body subs)

/-- The substitution pass as the specification describes it, by structural
recursion over the text: every placeholder occurrence whose referent is
found is replaced by `#<number>`; an occurrence whose referent is not found
is left byte-for-byte untouched; all other text is preserved byte-for-byte;
an unknown kind is a programmer fault (`none`). -/
def substitutionSpec (cache : GithubRepoCache) :
    Nat → List Char → Option (List Char)
  | 0, s => some s
  | _ + 1, [] => some []
  | fuel + 1, c :: cs =>
    match matchAt (c :: cs) with
    | some (a, b, rest) =>
      match substNumber cache a b with
      | none => none
      | some res =>
        match substitutionSpec cache fuel rest with
        | none => none
        | some tail =>
          match res with
          | none =>
            some (('{' :: '{' :: ' ' :: (a ++ ' ' :: (b ++ ' ' :: '}' :: '}' :: []))) ++ tail)
          | some repl => some (repl ++ tail)
    | none =>
      match substitutionSpec cache fuel cs with
      | none => none
      | some tail => some (c :: tail)

/-! ## Concrete inputs used by counterexamples and witnesses -/

/-- A concrete quest configuration. -/
def exConfig : QuestConfig := ⟨"T", "auth", "repo", []⟩

/-- A concrete full pull request with one review comment. -/
def exPr : FullPullRequest :=
  ⟨⟨5, some "T", some "B", "foo-a", some ["lbl"]⟩, [⟨"src/x.rs", "c", 3⟩]⟩

/-- A concrete repo cache: a pull numbered 17 labelled `x`, an issue
numbered 12 labelled `y`. -/
def c4cache : GithubRepoCache :=
  ⟨[⟨⟨17, some "t", some "b", "x-a", some ["x"]⟩, []⟩], [⟨12, "t", some "b", ["y"], false⟩]⟩

/-- A concrete diff oracle. -/
def exDiff : String → String → String := fun b h => b ++ "|" ++ h

/-- A concrete two-chapter configuration. -/
def twoStages : List Stage :=
  [⟨"ch0", "Chapter 0", none⟩, ⟨"ch1", "Chapter 1", none⟩]

/-- A one-chapter configuration with label `foo`. -/
def fooStage : Stage := ⟨"foo", "Foo", none⟩

/-- A concrete `git apply` oracle over `Tree := Nat`: every patch except
`"bad"` applies and bumps the tree. -/
def exApply : Nat → String → Option Nat :=
  fun t p => if p = "bad" then none else some (t + 1)

/-- A concrete one-patch package patch list. -/
def exPatch : Patch := ⟨"main", "x-a", "p0"⟩

end RepoQuest

namespace RepoQuest

/-! ## Theorems for C10 and C8 -/

/-- C10: for every part `p`, `StagePart.parse (p.render) = some p`; and for
every string other than `"a"` and `"b"` (including `"c"`), `StagePart.parse`
returns `none`. -/
theorem stagePart_parse_render_round_trip :
    (∀ p : StagePart, StagePart.parse p.render = some p) ∧
    (∀ s : String, s ≠ "a" → s ≠ "b" → StagePart.parse s = none) := by
  constructor
  · intro p
    cases p <;> rfl
  · intro s ha hb
    simp [StagePart.parse, ha, hb]

/-- Witness for C10 at the concrete string `"c"` (which the branch regex
`^(.*)-([abc])$` otherwise admits). -/
theorem stagePart_parse_render_round_trip_witness :
    StagePart.parse (StagePart.render .Starter) = some .Starter ∧
    StagePart.parse "c" = none :=
  ⟨stagePart_parse_render_round_trip.1 .Starter,
   stagePart_parse_render_round_trip.2 "c" (by decide) (by decide)⟩

/-- Counterexample to C8 as stated: with two stages, `skip_to_stage(2)` has
`stage_index = number of stages`, which lies outside the claimed totality
range `1 ≤ stage_index < 2`, yet the panicking prelude succeeds (it looks up
stage 1, which is in range). -/
theorem skip_to_stage_range_counterexample :
    (skipToStagePrev twoStages 2).isSome = true ∧ ¬ (1 ≤ 2 ∧ 2 < twoStages.length) := by
  constructor
  · rfl
  · decide

/-- C8 (amended): the panicking prelude of `Quest::skip_to_stage` succeeds
exactly for `1 ≤ stage_index ≤ number of stages`; in particular
`skip_to_stage(0)` panics from unsigned-integer underflow when computing
`stage_index - 1`, and `stage_index > number of stages` panics on the stage
lookup, instead of returning an error. -/
theorem skip_to_stage_requires_positive_index (stages : List Stage) :
    (∀ stage_index : Nat,
      (skipToStagePrev stages stage_index).isSome ↔
        (1 ≤ stage_index ∧ stage_index ≤ stages.length)) ∧
    skipToStagePrev stages 0 = none := by
  constructor
  · intro i
    rcases i with _ | j
    · simp [skipToStagePrev, checkedSub]
    · have h1 : checkedSub (j + 1) 1 = some j := by simp [checkedSub]
      rw [skipToStagePrev, h1, Option.some_bind, stageLookup, List.get?_eq_getElem?]
      rw [Option.isSome_iff_exists]
      constructor
      · rintro ⟨s, hs⟩
        obtain ⟨hlt, -⟩ := List.getElem?_eq_some.mp hs
        omega
      · intro h
        exact ⟨stages.get ⟨j, by omega⟩, List.getElem?_eq_some.mpr ⟨by omega, rfl⟩⟩
  · rfl

/-- Witness: the amended C8 theorem evaluated at the concrete two-stage
configuration and index 0. -/
theorem skip_to_stage_requires_positive_index_witness :
    ((skipToStagePrev twoStages 1).isSome ↔ (1 ≤ 1 ∧ 1 ≤ twoStages.length)) ∧
    skipToStagePrev twoStages 0 = none :=
  ⟨(skip_to_stage_requires_positive_index twoStages).1 1,
   (skip_to_stage_requires_positive_index twoStages).2⟩

/-! ## Lemmas about the lexicographic maximum, and C1 -/

theorem keyLe_refl (a : Nat × Nat × Nat) : keyLe a a := by
  unfold keyLe
  omega

theorem keyLe_total (a b : Nat × Nat × Nat) : keyLe a b ∨ keyLe b a := by
  unfold keyLe
  omega

theorem keyLe_trans {a b c : Nat × Nat × Nat} (h1 : keyLe a b) (h2 : keyLe b c) :
    keyLe a c := by
  unfold keyLe at h1 h2 ⊢
  omega

theorem keyLe_antisymm {a b : Nat × Nat × Nat} (h1 : keyLe a b) (h2 : keyLe b a) :
    a = b := by
  obtain ⟨a1, a2, a3⟩ := a
  obtain ⟨b1, b2, b3⟩ := b
  unfold keyLe at h1 h2
  dsimp only at h1 h2
  simp only [Prod.mk.injEq]
  omega

theorem tupleKey_inj {a b : StateTuple} (h : tupleKey a = tupleKey b) : a = b := by
  obtain ⟨a1, a2, a3⟩ := a
  obtain ⟨b1, b2, b3⟩ := b
  unfold tupleKey at h
  simp only [Prod.mk.injEq] at h ⊢
  obtain ⟨h1, h2, h3⟩ := h
  refine ⟨h1, ?_, ?_⟩
  · cases a2 <;> cases b2 <;> simp_all [partRank]
  · cases a3 <;> cases b3 <;> simp_all [boolRank]

theorem tupleLe_refl (a : StateTuple) : tupleLe a a := keyLe_refl _

theorem tupleLe_trans {a b c : StateTuple} (h1 : tupleLe a b) (h2 : tupleLe b c) :
    tupleLe a c := keyLe_trans h1 h2

theorem tupleLe_antisymm {a b : StateTuple} (h1 : tupleLe a b) (h2 : tupleLe b a) :
    a = b := tupleKey_inj (keyLe_antisymm h1 h2)

/-- The fold computing `max_by_key` starting from an element: the result is a
maximum of the accumulator and the list. -/
theorem foldl_maxStep_spec (l : List StateTuple) :
    ∀ m0 m, l.foldl maxStep (some m0) = some m →
      (m = m0 ∨ m ∈ l) ∧ tupleLe m0 m ∧ ∀ u ∈ l, tupleLe u m := by
  induction l with
  | nil =>
    intro m0 m h
    simp only [List.foldl_nil, Option.some.injEq] at h
    subst h
    exact ⟨Or.inl rfl, tupleLe_refl _, by simp⟩
  | cons t l ih =>
    intro m0 m h
    simp only [List.foldl_cons] at h
    by_cases hle : tupleLe m0 t
    · have hstep : maxStep (some m0) t = some t := by simp [maxStep, hle]
      rw [hstep] at h
      obtain ⟨hmem, hge, hall⟩ := ih t m h
      refine ⟨?_, ?_, ?_⟩
      · rcases hmem with rfl | hm
        · exact Or.inr (List.mem_cons_self _ _)
        · exact Or.inr (List.mem_cons_of_mem _ hm)
      · exact tupleLe_trans hle hge
      · intro u hu
        rcases List.mem_cons.mp hu with rfl | hu
        · exact hge
        · exact hall u hu
    · have hstep : maxStep (some m0) t = some m0 := by simp [maxStep, hle]
      rw [hstep] at h
      obtain ⟨hmem, hge, hall⟩ := ih m0 m h
      have htm0 : tupleLe t m0 := (keyLe_total _ _).resolve_left hle
      refine ⟨?_, hge, ?_⟩
      · rcases hmem with rfl | hm
        · exact Or.inl rfl
        · exact Or.inr (List.mem_cons_of_mem _ hm)
      · intro u hu
        rcases List.mem_cons.mp hu with rfl | hu
        · exact tupleLe_trans htm0 hge
        · exact hall u hu

/-- The fold never loses the accumulator: starting from `some`, it stays
`some`. -/
theorem foldl_maxStep_isSome (l : List StateTuple) :
    ∀ m0, ∃ m, l.foldl maxStep (some m0) = some m := by
  induction l with
  | nil => intro m0; exact ⟨m0, rfl⟩
  | cons t l ih =>
    intro m0
    simp only [List.foldl_cons]
    by_cases hle : tupleLe m0 t
    · rw [show maxStep (some m0) t = some t by simp [maxStep, hle]]
      exact ih t
    · rw [show maxStep (some m0) t = some m0 by simp [maxStep, hle]]
      exact ih m0

/-- C1: over the collected `(chapter index, part, finished)` tuples, with all
indices below the number of stages: if the collection is empty the inferred
state is `Ongoing{0, Starter, Start}`; otherwise, for the lexicographically
maximal tuple `(c, p, f)`: if `f = false` the state is `Ongoing{c, p,
Ongoing}`; if `f` and `p = Starter` it is `Ongoing{c, Solution, Start}`; if
`f` and `p = Solution` it is `Completed` when `c` is the last chapter and
`Ongoing{c+1, Starter, Start}` otherwise. -/
theorem infer_state_final_step (n : Nat) (tuples : List StateTuple)
    (hidx : ∀ t ∈ tuples, t.1 < n) :
    (tuples = [] → inferStateStep n tuples = .Ongoing 0 .Starter .Start) ∧
    (∀ t ∈ tuples, (∀ u ∈ tuples, tupleLe u t) →
      inferStateStep n tuples =
        if t.2.2 = false then .Ongoing t.1 t.2.1 .Ongoing
        else match t.2.1 with
          | .Starter => .Ongoing t.1 .Solution .Start
          | .Solution =>
            if t.1 = n - 1 then .Completed
            else .Ongoing (t.1 + 1) .Starter .Start) := by
  constructor
  · intro h
    subst h
    rfl
  · intro t hmem hmax
    have hmaxsome : ∃ m, max_by_key tuples = some m := by
      cases htup : tuples with
      | nil => rw [htup] at hmem; exact absurd hmem (List.not_mem_nil t)
      | cons a l =>
        unfold max_by_key
        simp only [List.foldl_cons, maxStep]
        exact foldl_maxStep_isSome l a
    obtain ⟨m, hm⟩ := hmaxsome
    have hspec : m ∈ tuples ∧ ∀ u ∈ tuples, tupleLe u m := by
      cases htup : tuples with
      | nil => rw [htup] at hmem; exact absurd hmem (List.not_mem_nil t)
      | cons a l =>
        rw [htup] at hm
        unfold max_by_key at hm
        simp only [List.foldl_cons, maxStep] at hm
        obtain ⟨hmem', hge, hall⟩ := foldl_maxStep_spec l a m hm
        constructor
        · rcases hmem' with rfl | h
          · exact List.mem_cons_self _ _
          · exact List.mem_cons_of_mem _ h
        · intro u hu
          rcases List.mem_cons.mp hu with rfl | hu
          · exact hge
          · exact hall u hu
    have heq : m = t := tupleLe_antisymm (hmax m hspec.1) (hspec.2 t hmem)
    subst heq
    obtain ⟨c, p, f⟩ := m
    unfold inferStateStep
    rw [hm]
    cases f
    · simp
    · cases p <;> simp [StagePart.next_part]

/-- Witness for C1: with two stages and tuples for a finished starter of
chapter 0 and a finished solution of chapter 1, the maximal tuple is
`(1, Solution, true)` and chapter 1 is last, so the state is `Completed`. -/
theorem infer_state_final_step_witness :
    inferStateStep 2 [((0 : Nat), StagePart.Starter, true), ((1 : Nat), StagePart.Solution, true)] =
      QuestState.Completed := by
  have h := (infer_state_final_step 2
      [((0 : Nat), StagePart.Starter, true), ((1 : Nat), StagePart.Solution, true)]
      (by decide)).2 ((1 : Nat), StagePart.Solution, true) (by decide) (by decide)
  simpa using h

/-! ## Tuple formation from pulls (C2) -/

/-- Counterexample to C2 as stated: the pull with head `foo-b` parses as the
solution part of the known chapter `foo` and is merged, but the issue map has
no issue for `foo`, so `pr_stages` forms no tuple for this pull at all (the
`?` on the issue lookup drops the whole closure result), contradicting the
claim that every such pull contributes a tuple. -/
theorem pr_stage_tuple_counterexample :
    parse_stage [fooStage] "foo-b" = some (fooStage, .Solution) ∧
    prStage [fooStage] (fun _ => none) ⟨"foo-b", true⟩ = none := by
  constructor
  · rfl
  · rfl

/-- C2 (amended): for every fetched pull whose head-ref parses as
`<label>-<a|b>` with `label` a known chapter: an unmerged pull contributes
`(stage, part, false)` without consulting the issue map; a starter pull
contributes `(stage, Starter, merged)`; a merged solution pull whose label
has an issue in the map contributes `(stage, Solution, closed)` — i.e.
`finished = merged ∧ (part = Starter ∨ issue closed)` in all those cases —
but a merged solution pull whose label has no issue in the issue map
contributes no tuple at all. -/
theorem pr_stage_tuple_formation (stages : List Stage)
    (issueClosed : String → Option Bool) (pr : PullInfo) (stage : Stage) (part : StagePart)
    (h : parse_stage stages pr.headRef = some (stage, part)) :
    (pr.merged = false → prStage stages issueClosed pr = some (stage, part, false)) ∧
    (part = .Starter → prStage stages issueClosed pr = some (stage, part, pr.merged)) ∧
    (∀ closed, pr.merged = true → issueClosed stage.label = some closed →
      prStage stages issueClosed pr =
        some (stage, part, pr.merged && (part == StagePart.Starter || closed))) ∧
    (pr.merged = true → part = .Solution → issueClosed stage.label = none →
      prStage stages issueClosed pr = none) := by
  refine ⟨?_, ?_, ?_, ?_⟩
  · intro hm
    simp [prStage, h, hm]
  · intro hp
    subst hp
    cases hm : pr.merged <;> simp [prStage, h, hm]
  · intro closed hm hic
    cases part <;> simp [prStage, h, hm, hic]
  · intro hm hp hic
    subst hp
    simp [prStage, h, hm, hic]

/-- Witness for the amended C2: a merged solution pull for chapter `foo`
whose issue is closed yields the tuple `(foo, Solution, true)`. -/
theorem pr_stage_tuple_formation_witness :
    prStage [fooStage] (fun l => if l = "foo" then some true else none) ⟨"foo-b", true⟩ =
      some (fooStage, StagePart.Solution,
        (true && (StagePart.Solution == StagePart.Starter || true))) :=
  (pr_stage_tuple_formation [fooStage] (fun l => if l = "foo" then some true else none)
      ⟨"foo-b", true⟩ fooStage .Solution rfl).2.2.1 true rfl (by decide)

/-! ## The patch engine protocol (C3, C9) -/

theorem mem_of_getLast?_eq {α : Type} {l : List α} {a : α} (h : l.getLast? = some a) :
    a ∈ l := by
  rw [List.getLast?_eq_getElem? l] at h
  obtain ⟨hlt, heq⟩ := List.getElem?_eq_some.mp h
  exact heq ▸ List.getElem_mem hlt

/-- Every index produced by the rebuilt patch map is in range. -/
theorem patchMapOf_lt {patches : List Patch} {key : String × String} {k : Nat}
    (h : patchMapOf patches key = some k) : k < patches.length := by
  unfold patchMapOf at h
  cases hlast : ((patches.enum.filter
      (fun p => p.2.base = key.1 ∧ p.2.head = key.2)).getLast?) with
  | none => rw [hlast] at h; exact Option.noConfusion h
  | some x =>
    rw [hlast] at h
    have hx : x ∈ patches.enum := List.mem_of_mem_filter (mem_of_getLast?_eq hlast)
    have h2 := List.mem_enum_iff_getElem?.mp hx
    obtain ⟨hlt, -⟩ := List.getElem?_eq_some.mp h2
    have hxk : x.1 = k := by simpa using h
    omega

/-- The last element of `patches[..=k]` is `patches[k]`. -/
theorem getLast?_take_of_get? {α : Type} {l : List α} {k : Nat} {a : α}
    (h : l.get? k = some a) : (l.take (k + 1)).getLast? = some a := by
  rw [List.get?_eq_getElem?] at h
  obtain ⟨hlt, heq⟩ := List.getElem?_eq_some.mp h
  have hlen : (l.take (k + 1)).length = k + 1 := by
    rw [List.length_take]
    omega
  rw [List.getLast?_eq_getElem?, hlen]
  simp only [Nat.add_sub_cancel]
  rw [List.getElem?_take]
  simp [hlt, heq]

/-- Folding `GitRepo::apply` over a chain of patches applies each patch to
the tree in order and logs one `applyOp` per patch. -/
theorem foldlM_gitApply {Tree : Type} (applyFn : Tree → String → Option Tree)
    (chain : List String) :
    ∀ (st : GitState Tree) (t : Tree), chain.foldlM applyFn st.tree = some t →
      chain.foldlM (gitApply applyFn) st =
        .ok ⟨t, st.log ++ chain.map GitOp.applyOp⟩ := by
  induction chain with
  | nil =>
    intro st t h
    simp only [List.foldlM_nil, pure, Option.some.injEq] at h
    subst h
    simp only [List.foldlM_nil, List.map_nil, List.append_nil]
    rfl
  | cons p ps ih =>
    intro st t h
    rw [List.foldlM_cons] at h
    cases happ : applyFn st.tree p with
    | none =>
      rw [happ] at h
      simp at h
    | some t1 =>
      rw [happ] at h
      have h2 : ps.foldlM applyFn t1 = some t := by
        simpa using h
      rw [List.foldlM_cons]
      have hstep : gitApply applyFn st p = .ok ⟨t1, st.log ++ [GitOp.applyOp p]⟩ := by
        simp [gitApply, happ]
      rw [hstep]
      have := ih ⟨t1, st.log ++ [GitOp.applyOp p]⟩ t h2
      simpa [List.append_assoc] using this

/-- C3: for every non-empty chain `patches[0..=k]` selected by
`PackageTemplate::apply_patch` for a `(base, head)` pair that indexes patch
`k`, the engine first attempts only the last patch `patches[k]`.  If that
applies, the result is `Success`; if not, the tree is hard-reset to the
`initial` tag and every patch `patches[0..=k]` is applied in order, yielding
`StarterReset`.  In both sub-cases the changes are then staged (`git add .`)
and committed with message `"Starter code"`. -/
theorem package_merge_protocol {Tree : Type} (applyFn : Tree → String → Option Tree)
    (initialTree : Tree) (st : GitState Tree) (patches : List Patch)
    (base target : String) (k : Nat) (pk : Patch)
    (hk : patchMapOf patches (base, target) = some k)
    (hpk : patches.get? k = some pk) :
    (∀ t, applyFn st.tree pk.patch = some t →
      package_apply_patch applyFn initialTree st patches (patchMapOf patches) base target =
        some (.ok (⟨t, st.log ++ [.applyOp pk.patch, .addAll, .commitOp "Starter code"]⟩,
          MergeType.Success))) ∧
    (applyFn st.tree pk.patch = none →
      ∀ tfin, ((patches.take (k + 1)).map (·.patch)).foldlM applyFn initialTree = some tfin →
        package_apply_patch applyFn initialTree st patches (patchMapOf patches) base target =
          some (.ok (⟨tfin, st.log ++ [.resetHard "initial"]
              ++ ((patches.take (k + 1)).map (·.patch)).map GitOp.applyOp
              ++ [.addAll, .commitOp "Starter code"]⟩, MergeType.StarterReset))) := by
  have hklt : k < patches.length := by
    rw [List.get?_eq_getElem?] at hpk
    obtain ⟨hlt, -⟩ := List.getElem?_eq_some.mp hpk
    exact hlt
  have hlast : ((patches.take (k + 1)).map (·.patch)).getLast? = some pk.patch := by
    rw [List.getLast?_map, getLast?_take_of_get? hpk]
    rfl
  constructor
  · intro t happ
    have hstep : gitApply applyFn st pk.patch = .ok ⟨t, st.log ++ [GitOp.applyOp pk.patch]⟩ := by
      simp [gitApply, happ]
    simp only [package_apply_patch, hk, if_pos hklt, apply_patch_git, hlast, hstep]
    simp [Except.map, List.append_assoc]
  · intro happ tfin hfold
    have hstep : gitApply applyFn st pk.patch = .error "git apply failed" := by
      simp [gitApply, happ]
    have hchain := foldlM_gitApply applyFn ((patches.take (k + 1)).map (·.patch))
      ⟨initialTree, st.log ++ [GitOp.resetHard "initial"]⟩ tfin hfold
    simp only [package_apply_patch, hk, if_pos hklt, apply_patch_git, hlast, hstep, hchain]
    simp [Except.map, List.append_assoc]

/-- Witness for C3: a one-patch package whose patch applies cleanly yields
`Success` with the apply, stage and commit logged. -/
theorem package_merge_protocol_witness :
    package_apply_patch exApply 42 ⟨0, []⟩ [exPatch] (patchMapOf [exPatch]) "main" "x-a" =
      some (.ok (⟨1, [GitOp.applyOp "p0", GitOp.addAll, GitOp.commitOp "Starter code"]⟩,
        MergeType.Success)) :=
  (package_merge_protocol exApply 42 ⟨0, []⟩ [exPatch] "main" "x-a" 0 exPatch
    (by decide) rfl).1 1 rfl

/-- C9: `GitRepo::apply_patch` panics on an empty patch slice (the `unwrap`
of `patches.last()`); under the guarantee provided by its only caller
`PackageTemplate::apply_patch` — which passes `patches[..=patch_index]` with
the index drawn from the package's rebuilt patch map — the panic branch is
unreachable. -/
theorem apply_patch_requires_nonempty :
    (∀ (Tree : Type) (applyFn : Tree → String → Option Tree) (initialTree : Tree)
      (st : GitState Tree), apply_patch_git applyFn initialTree st [] = none) ∧
    (∀ (Tree : Type) (applyFn : Tree → String → Option Tree) (initialTree : Tree)
      (st : GitState Tree) (patches : List Patch) (base target : String),
      package_apply_patch applyFn initialTree st patches (patchMapOf patches) base target
        ≠ none) := by
  constructor
  · intro Tree applyFn initialTree st
    rfl
  · intro Tree applyFn initialTree st patches base target
    cases hmk : patchMapOf patches (base, target) with
    | none => simp [package_apply_patch, hmk]
    | some k =>
      have hklt : k < patches.length := patchMapOf_lt hmk
      have hpk : patches.get? k = some (patches.get ⟨k, hklt⟩) := List.get?_eq_get hklt
      have hlast : ((patches.take (k + 1)).map (·.patch)).getLast?
          = some (patches.get ⟨k, hklt⟩).patch := by
        rw [List.getLast?_map, getLast?_take_of_get? hpk]
        rfl
      rw [List.map_take] at hlast
      simp [package_apply_patch, hmk, hklt, apply_patch_git, hlast]

/-- Witness for C9: the empty-slice panic at a concrete instantiation, and
the absence of the panic through the package template for a concrete
one-patch package. -/
theorem apply_patch_requires_nonempty_witness :
    apply_patch_git exApply (42 : Nat) ⟨0, []⟩ [] = none ∧
    package_apply_patch exApply (42 : Nat) ⟨0, []⟩ [exPatch] (patchMapOf [exPatch])
      "main" "x-a" ≠ none :=
  ⟨apply_patch_requires_nonempty.1 Nat exApply 42 ⟨0, []⟩,
   apply_patch_requires_nonempty.2 Nat exApply 42 ⟨0, []⟩ [exPatch] "main" "x-a"⟩

/-! ## Package patch-list invariant (C6) -/

theorem enumFrom_filter_map_snd {α : Type} (q : α → Bool) :
    ∀ (n : Nat) (l : List α),
      (((l.enumFrom n).filter (fun p => q p.2)).map (·.2)) = l.filter q := by
  intro n l
  induction l generalizing n with
  | nil => rfl
  | cons a l ih =>
    simp only [List.enumFrom_cons, List.filter_cons]
    cases hq : q a <;> simp [hq, ih]

/-- Appending a fixed suffix to a string is injective. -/
theorem append_suffix_injective (suf : String) :
    Function.Injective (fun s : String => s ++ suf) := by
  intro a b h
  have hd := congrArg String.data h
  simp only [String.data_append] at hd
  exact String.ext (List.append_cancel_right hd)

/-- Starter branch names are injective in the stage label. -/
theorem starter_branch_injective :
    Function.Injective (fun lab : String => lab ++ "-" ++ StagePart.render .Starter) := by
  intro a b h
  exact append_suffix_injective "-" (append_suffix_injective (StagePart.render .Starter) h)

/-- The heads of a built package's patch list are exactly the starter
branches of the chapters with `no_starter` unset, in chapter order. -/
theorem buildPatches_heads (diffFn : String → String → String) (stages : List Stage) :
    (buildPatches diffFn stages).map (·.head) =
      (stages.filter (fun s => !(s.no_starter == some true))).map
        (fun s => s.branch_name .Starter) := by
  unfold buildPatches
  rw [List.map_map]
  have h1 : ((fun p : Patch => p.head) ∘
      (fun p : Nat × Stage =>
        let base := match (if p.1 > 0 then stages.get? (p.1 - 1) else none) with
          | some prev => prev.branch_name .Solution
          | none => "main"
        let head := p.2.branch_name .Starter
        ({ base := base, head := head, patch := diffFn base head } : Patch))) =
      ((fun s : Stage => s.branch_name .Starter) ∘ (fun p : Nat × Stage => p.2)) := rfl
  rw [h1, ← List.map_map]
  rw [show stages.enum = stages.enumFrom 0 from rfl]
  rw [enumFrom_filter_map_snd (fun s : Stage => !(s.no_starter == some true)) 0 stages]

/-- C6: for every config whose chapter labels are distinct,
`QuestPackage::build` produces a patch list with exactly one patch per
chapter whose `no_starter` is not true, in chapter order, where each patch's
head is that chapter's starter branch `<label>-a` and its base is the
immediately previous chapter's solution branch (or `"main"` for the first
chapter). -/
theorem package_patch_list_invariant (diffFn : String → String → String)
    (stages : List Stage) (huniq : (stages.map (·.label)).Nodup) :
    ((buildPatches diffFn stages).map (·.head) =
      (stages.filter (fun s => !(s.no_starter == some true))).map
        (fun s => s.branch_name .Starter)) ∧
    (∀ i (hi : i < stages.length), (stages.get ⟨i, hi⟩).no_starter ≠ some true →
      ((buildPatches diffFn stages).countP
          (fun p => p.head == (stages.get ⟨i, hi⟩).branch_name .Starter) = 1 ∧
        ∀ p ∈ buildPatches diffFn stages,
          p.head = (stages.get ⟨i, hi⟩).branch_name .Starter →
          p.base = if i = 0 then "main"
            else ((stages.get ⟨i - 1, by omega⟩).branch_name .Solution))) := by
  refine ⟨buildPatches_heads diffFn stages, ?_⟩
  intro i hi hns
  have hq : (fun s : Stage => !(s.no_starter == some true)) (stages.get ⟨i, hi⟩) = true := by
    simpa using hns
  have hmemf : stages.get ⟨i, hi⟩ ∈
      stages.filter (fun s => !(s.no_starter == some true)) :=
    List.mem_filter.mpr ⟨List.get_mem stages i hi, hq⟩
  constructor
  · -- exactly one patch for this chapter
    have hcount : (buildPatches diffFn stages).countP
        (fun p => p.head == (stages.get ⟨i, hi⟩).branch_name .Starter) =
        ((buildPatches diffFn stages).map (·.head)).count
          ((stages.get ⟨i, hi⟩).branch_name .Starter) := by
      rw [List.count, List.countP_map]
      rfl
    rw [hcount, buildPatches_heads]
    have hmapeq : (stages.filter (fun s => !(s.no_starter == some true))).map
        (fun s => s.branch_name .Starter) =
        ((stages.filter (fun s => !(s.no_starter == some true))).map (·.label)).map
          (fun lab => lab ++ "-" ++ StagePart.render .Starter) := by
      rw [List.map_map]
      rfl
    rw [hmapeq]
    rw [show (stages.get ⟨i, hi⟩).branch_name .Starter =
      (fun lab : String => lab ++ "-" ++ StagePart.render .Starter)
        ((stages.get ⟨i, hi⟩).label) from rfl]
    rw [List.count_map_of_injective _ _ starter_branch_injective]
    have hle : ((stages.filter (fun s => !(s.no_starter == some true))).map (·.label)).count
        (stages.get ⟨i, hi⟩).label ≤
        (stages.map (·.label)).count (stages.get ⟨i, hi⟩).label :=
      List.Sublist.count_le (List.Sublist.map _ (List.filter_sublist stages)) _
    have h1 : (stages.map (·.label)).count (stages.get ⟨i, hi⟩).label ≤ 1 :=
      List.nodup_iff_count_le_one.mp huniq _
    have hpos : 0 < ((stages.filter (fun s => !(s.no_starter == some true))).map
        (·.label)).count (stages.get ⟨i, hi⟩).label :=
      List.count_pos_iff.mpr (List.mem_map.mpr ⟨_, hmemf, rfl⟩)
    omega
  · -- base characterization
    intro p hp hhead
    obtain ⟨x, hxf, hxp⟩ := List.mem_map.mp hp
    obtain ⟨xi, xs⟩ := x
    obtain ⟨hxe, hxq⟩ := List.mem_filter.mp hxf
    have hxg := List.mem_enum_iff_getElem?.mp hxe
    obtain ⟨hx1, hx2⟩ := List.getElem?_eq_some.mp hxg
    have hxhead : p.head = xs.branch_name .Starter := by
      rw [← hxp]
    have hlab : xs.label = (stages.get ⟨i, hi⟩).label := by
      have hb : xs.branch_name .Starter = (stages.get ⟨i, hi⟩).branch_name .Starter := by
        rw [← hxhead, hhead]
      exact starter_branch_injective hb
    have hx1' : xi < stages.length := hx1
    have hidx : xi = i := by
      have hnth : (stages.map (·.label)).get ⟨xi, by simpa using hx1⟩ =
          (stages.map (·.label)).get ⟨i, by simpa using hi⟩ := by
        simp only [List.get_eq_getElem, List.getElem_map]
        rw [show stages[xi] = xs from hx2]
        rw [show stages[i] = stages.get ⟨i, hi⟩ from rfl]
        exact hlab
      have h2 := (List.Nodup.get_inj_iff huniq).mp hnth
      simpa using h2
    rw [← hxp]
    show (match (if xi > 0 then stages.get? (xi - 1) else none) with
      | some prev => prev.branch_name .Solution
      | none => "main") = _
    subst hidx
    by_cases h0 : xi = 0
    · subst h0
      simp
    · rw [if_neg h0, if_pos (by omega : xi > 0)]
      have hprev : stages.get? (xi - 1) = some (stages.get ⟨xi - 1, by omega⟩) :=
        List.get?_eq_get (by omega)
      rw [hprev]

/-- Witness for C6 at the concrete two-chapter configuration, chapter 1. -/
theorem package_patch_list_invariant_witness :
    ((buildPatches exDiff twoStages).map (·.head) =
      (twoStages.filter (fun s => !(s.no_starter == some true))).map
        (fun s => s.branch_name .Starter)) ∧
    (buildPatches exDiff twoStages).countP
        (fun p => p.head == (twoStages.get ⟨1, by decide⟩).branch_name .Starter) = 1 :=
  ⟨(package_patch_list_invariant exDiff twoStages (by decide)).1,
   ((package_patch_list_invariant exDiff twoStages (by decide)).2 1 (by decide)
      (by decide)).1⟩

/-! ## Package version gate (C7) -/

/-- C7: deserializing a quest package never fails because of a version
mismatch — whenever the external gzip/JSON parse succeeds, the package is
returned (with its patch map rebuilt) for every version, the warning flag
recording whether the version fails the `^engineVersion` check; and every
load error is exactly a parse (malformed gzip or JSON) error. -/
theorem package_version_gate {Blob Payload : Type}
    (parse : Blob → Except String (QuestPackageData Payload))
    (engineVersion : SemVer) (blob : Blob) :
    (∀ pkg, parse blob = .ok pkg →
      package_deserialize parse engineVersion blob =
        .ok ((pkg, patchMapOf pkg.patches), !(caretMatches engineVersion pkg.version))) ∧
    (∀ e, package_deserialize parse engineVersion blob = .error e →
      parse blob = .error e) := by
  constructor
  · intro pkg h
    simp [package_deserialize, h]
  · intro e h
    cases hp : parse blob with
    | error e2 =>
      simp only [package_deserialize, hp] at h
      cases h
      rfl
    | ok pkg =>
      simp [package_deserialize, hp] at h

/-- Witness for C7: a package stamped `2.0.0` loaded by engine `1.0.0` does
not satisfy `^1.0.0`, yet deserialization succeeds, returning the package
with the warning flag set. -/
theorem package_version_gate_witness :
    package_deserialize
        (fun _ : Unit => Except.ok (⟨⟨2, 0, 0⟩, exConfig, [], ()⟩ : QuestPackageData Unit))
        ⟨1, 0, 0⟩ () =
      .ok (((⟨⟨2, 0, 0⟩, exConfig, [], ()⟩ : QuestPackageData Unit), patchMapOf []),
        !(caretMatches ⟨1, 0, 0⟩ ⟨2, 0, 0⟩)) ∧
    (!(caretMatches ⟨1, 0, 0⟩ ⟨2, 0, 0⟩)) = true :=
  ⟨(package_version_gate
      (fun _ : Unit => Except.ok (⟨⟨2, 0, 0⟩, exConfig, [], ()⟩ : QuestPackageData Unit))
      ⟨1, 0, 0⟩ ()).1 _ rfl,
   by decide⟩

/-! ## Pull copying (C5) -/

/-- Appending a non-empty suffix changes a string. -/
theorem append_notice_ne (body notice : String) (h : notice ≠ "") :
    body ++ notice ≠ body := by
  intro he
  apply h
  have hd := congrArg String.data he
  rw [String.data_append] at hd
  have h2 : body.data ++ notice.data = body.data ++ [] := by simpa using hd
  have h3 := List.append_right_injective body.data h2
  exact String.ext h3

/-- C5: for every `copy_pr(pr, head_sha, merge_type)` call on a pull with a
title and a body, the created pull has head `pr.head.ref` and base exactly
`"main"`; its body equals `pr`'s body exactly when the merge type is
`Success` and is `pr`'s body suffixed with a merge-conflict notice on
`StarterReset`/`SolutionReset`; its labels are `pr`'s labels plus one extra
`reset` label exactly in the two conflict cases; and every review comment is
re-posted anchored at `head_sha`. -/
theorem copy_pr_spec (pr : FullPullRequest) (head : String) (mt : MergeType)
    (title body : String)
    (ht : pr.data.title = some title) (hb : pr.data.body = some body) :
    ∃ c, copy_pr pr head mt = some c ∧
      c.title = title ∧
      c.head = pr.data.headRef ∧
      c.base = "main" ∧
      (c.body = body ↔ mt = .Success) ∧
      (mt = .Success → c.body = body ∧ c.labelsAdded = (pr.data.labels).getD []) ∧
      ((mt = .StarterReset ∨ mt = .SolutionReset) →
        (c.body = body ++ starterResetNotice ∨ c.body = body ++ solutionResetNotice) ∧
        c.labelsAdded = (pr.data.labels).getD [] ++ [RESET_LABEL]) ∧
      c.commentsPosted = pr.comments.map (fun cm => (cm.path, head, cm.body, cm.line)) := by
  cases mt with
  | Success =>
    refine ⟨⟨title, pr.data.headRef, "main", body, (pr.data.labels).getD [],
      pr.comments.map (fun c => (c.path, head, c.body, c.line))⟩,
      ?_, rfl, rfl, rfl, ?_, ?_, ?_, rfl⟩
    · simp [copy_pr, hb, ht]
    · simp
    · intro h
      exact ⟨rfl, rfl⟩
    · rintro (h | h) <;> cases h
  | StarterReset =>
    refine ⟨⟨title, pr.data.headRef, "main", body ++ starterResetNotice,
      (pr.data.labels).getD [] ++ [RESET_LABEL],
      pr.comments.map (fun c => (c.path, head, c.body, c.line))⟩,
      ?_, rfl, rfl, rfl, ?_, ?_, ?_, rfl⟩
    · simp [copy_pr, hb, ht]
    · constructor
      · intro h
        exact absurd h (append_notice_ne body starterResetNotice (by decide))
      · intro h
        cases h
    · intro h
      cases h
    · intro h
      exact ⟨Or.inl rfl, rfl⟩
  | SolutionReset =>
    refine ⟨⟨title, pr.data.headRef, "main", body ++ solutionResetNotice,
      (pr.data.labels).getD [] ++ [RESET_LABEL],
      pr.comments.map (fun c => (c.path, head, c.body, c.line))⟩,
      ?_, rfl, rfl, rfl, ?_, ?_, ?_, rfl⟩
    · simp [copy_pr, hb, ht]
    · constructor
      · intro h
        exact absurd h (append_notice_ne body solutionResetNotice (by decide))
      · intro h
        cases h
    · intro h
      cases h
    · intro h
      exact ⟨Or.inr rfl, rfl⟩

/-- Witness for C5: copying a concrete pull after a starter reset yields a
pull based on `main`. -/
theorem copy_pr_spec_witness :
    ∃ c, copy_pr exPr "sha1" MergeType.StarterReset = some c ∧ c.base = "main" := by
  obtain ⟨c, hc, -, -, hbase, -⟩ :=
    copy_pr_spec exPr "sha1" MergeType.StarterReset "T" "B" rfl rfl
  exact ⟨c, hc, hbase⟩

/-! ## Issue-body substitution (C4) -/

theorem takeNonspace_append : ∀ s : List Char,
    (takeNonspace s).1 ++ (takeNonspace s).2 = s := by
  intro s
  induction s with
  | nil => rfl
  | cons c cs ih =>
    unfold takeNonspace
    cases h : regexSpaceChar c
    · simp only [h, Bool.false_eq_true, if_false, List.cons_append, List.cons.injEq, true_and]
      exact ih
    · simp [h]

/-- Inversion of a placeholder match: the scanned text decomposes into the
fixed frame around the two captures. -/
theorem matchAt_decomp {s a b rest : List Char} (h : matchAt s = some (a, b, rest)) :
    s = '{' :: '{' :: ' ' :: (a ++ ' ' :: (b ++ ' ' :: '}' :: '}' :: rest)) := by
  rcases s with _ | ⟨c1, _ | ⟨c2, _ | ⟨c3, r⟩⟩⟩
  · exact Option.noConfusion h
  · exact Option.noConfusion h
  · exact Option.noConfusion h
  · rcases hr : takeNonspace r with ⟨a0, r1⟩
    have hra : a0 ++ r1 = r := by
      have h2 := takeNonspace_append r
      rw [hr] at h2
      exact h2
    simp only [matchAt] at h
    have hra1 : (takeNonspace r).1 = a0 := by rw [hr]
    have hra2 : (takeNonspace r).2 = r1 := by rw [hr]
    rw [hra1, hra2] at h
    by_cases h1 : c1 = '{' ∧ c2 = '{' ∧ c3 = ' '
    case neg => rw [if_neg h1] at h; exact Option.noConfusion h
    rw [if_pos h1] at h
    obtain ⟨hc1, hc2, hc3⟩ := h1
    subst hc1; subst hc2; subst hc3
    by_cases ha0 : a0 = []
    case pos => rw [if_pos ha0] at h; exact Option.noConfusion h
    rw [if_neg ha0] at h
    rcases r1 with _ | ⟨c4, r2⟩
    · exact Option.noConfusion h
    dsimp only at h
    rcases hr2 : takeNonspace r2 with ⟨b0, r3⟩
    have hrb : b0 ++ r3 = r2 := by
      have h2 := takeNonspace_append r2
      rw [hr2] at h2
      exact h2
    have hrb1 : (takeNonspace r2).1 = b0 := by rw [hr2]
    have hrb2 : (takeNonspace r2).2 = r3 := by rw [hr2]
    rw [hrb1, hrb2] at h
    by_cases h4 : c4 = ' '
    case neg => rw [if_neg h4] at h; exact Option.noConfusion h
    rw [if_pos h4] at h
    subst h4
    by_cases hb0 : b0 = []
    case pos => rw [if_pos hb0] at h; exact Option.noConfusion h
    rw [if_neg hb0] at h
    rcases r3 with _ | ⟨c5, _ | ⟨c6, _ | ⟨c7, r4⟩⟩⟩
    · exact Option.noConfusion h
    · exact Option.noConfusion h
    · exact Option.noConfusion h
    dsimp only at h
    by_cases h5 : c5 = ' ' ∧ c6 = '}' ∧ c7 = '}'
    case neg => rw [if_neg h5] at h; exact Option.noConfusion h
    rw [if_pos h5] at h
    obtain ⟨hc5, hc6, hc7⟩ := h5
    subst hc5; subst hc6; subst hc7
    simp only [Option.some.injEq, Prod.mk.injEq] at h
    obtain ⟨ha, hb, hrest⟩ := h
    subst ha; subst hb; subst hrest
    rw [← hra, ← hrb]

theorem rmr_cons (s : List Char) (r : (Nat × Nat) × List Char)
    (subs : List ((Nat × Nat) × List Char)) :
    replace_many_ranges s (r :: subs) =
      replaceRange (replace_many_ranges s subs) r.1.1 r.1.2 r.2 := by
  unfold replace_many_ranges
  rw [List.reverse_cons, List.foldl_append]
  rfl

theorem replaceRange_shift (pre t : List Char) (st en : Nat) (c : List Char) :
    replaceRange (pre ++ t) (st + pre.length) (en + pre.length) c =
      pre ++ replaceRange t st en c := by
  unfold replaceRange
  rw [List.take_append_eq_append_take, List.drop_append_eq_append_drop]
  rw [List.take_of_length_le (by omega), List.drop_eq_nil_of_le (by omega)]
  simp [Nat.add_sub_cancel, List.append_assoc]

/-- Replacements whose offsets are all shifted past a fixed prefix leave the
prefix untouched and act on the suffix. -/
theorem rmr_shift (pre : List Char) (subs : List ((Nat × Nat) × List Char))
    (t : List Char) :
    replace_many_ranges (pre ++ t)
      (subs.map (fun r => ((r.1.1 + pre.length, r.1.2 + pre.length), r.2))) =
    pre ++ replace_many_ranges t subs := by
  induction subs with
  | nil => rfl
  | cons r subs ih =>
    rw [List.map_cons, rmr_cons, rmr_cons, ih]
    exact replaceRange_shift pre _ r.1.1 r.1.2 r.2

/-- The scan-then-replace pipeline of `process_issue_body` computes exactly
the recursive substitution described by the specification. -/
theorem scan_vs_spec (cache : GithubRepoCache) :
    ∀ (fuel : Nat) (s : List Char), s.length ≤ fuel →
      Option.map (replace_many_ranges s) (scanSubsts cache fuel s) =
        substitutionSpec cache fuel s := by
  intro fuel
  induction fuel with
  | zero =>
    intro s hs
    have hnil : s = [] := List.length_eq_zero.mp (Nat.le_zero.mp hs)
    subst hnil
    rfl
  | succ fuel ih =>
    intro s hs
    cases s with
    | nil => rfl
    | cons c cs =>
      cases hm : matchAt (c :: cs) with
      | none =>
        have hcs : cs.length ≤ fuel := by
          simp only [List.length_cons] at hs
          omega
        have hrec := ih cs hcs
        simp only [scanSubsts, substitutionSpec, hm]
        cases hscan : scanSubsts cache fuel cs with
        | none =>
          rw [hscan] at hrec
          simp only [Option.map_none'] at hrec
          rw [← hrec]
          rfl
        | some tail =>
          rw [hscan] at hrec
          simp only [Option.map_some'] at hrec
          rw [← hrec]
          have h2 := rmr_shift [c] tail cs
          simp only [List.length_cons, List.length_nil, Nat.zero_add,
            List.cons_append, List.nil_append] at h2
          simp [h2]
      | some abr =>
        obtain ⟨a, b, rest⟩ := abr
        have hdec := matchAt_decomp hm
        have hlen : cs.length + 1 = a.length + b.length + 7 + rest.length := by
          have h2 := congrArg List.length hdec
          simp only [List.length_cons, List.length_append] at h2
          omega
        have hrest : rest.length ≤ fuel := by
          simp only [List.length_cons] at hs
          omega
        have hrec := ih rest hrest
        simp only [scanSubsts, substitutionSpec, hm]
        cases hsub : substNumber cache a b with
        | none => simp
        | some res =>
          cases hscan : scanSubsts cache fuel rest with
          | none =>
            rw [hscan] at hrec
            simp only [Option.map_none'] at hrec
            rw [← hrec]
            cases res <;> simp
          | some tail =>
            rw [hscan] at hrec
            simp only [Option.map_some'] at hrec
            rw [← hrec]
            have hP : (c :: cs) =
                ('{' :: '{' :: ' ' :: (a ++ ' ' :: (b ++ [' ', '}', '}']))) ++ rest := by
              rw [hdec]
              simp [List.append_assoc]
            have hPlen : ('{' :: '{' :: ' ' :: (a ++ ' ' :: (b ++ [' ', '}', '}']))).length =
                a.length + b.length + 7 := by
              simp only [List.length_cons, List.length_append, List.length_nil]
              omega
            cases res with
            | none =>
              simp only [Option.map_some', Option.some.injEq]
              rw [hP, ← hPlen, rmr_shift]
            | some repl =>
              simp only [Option.map_some', Option.some.injEq]
              rw [rmr_cons]
              rw [hP, ← hPlen, rmr_shift]
              show replaceRange _ 0 (('{' :: '{' :: ' ' ::
                (a ++ ' ' :: (b ++ [' ', '}', '}']))).length) repl = _
              unfold replaceRange
              rw [List.take_zero, List.drop_left]
              simp

/-- The ranges produced by the scan are well-formed and pairwise disjoint,
in ascending order. -/
theorem scanSubsts_sorted (cache : GithubRepoCache) :
    ∀ (fuel : Nat) (s : List Char) (subs : List ((Nat × Nat) × List Char)),
      scanSubsts cache fuel s = some subs →
      List.Chain' (fun r r2 => r.1.2 ≤ r2.1.1) subs ∧ ∀ r ∈ subs, r.1.1 ≤ r.1.2 := by
  intro fuel
  induction fuel with
  | zero =>
    intro s subs h
    have hsub : subs = [] := by
      have h2 : (some [] : Option (List ((Nat × Nat) × List Char))) = some subs := h
      simpa using h2.symm
    subst hsub
    exact ⟨List.chain'_nil, by simp⟩
  | succ fuel ih =>
    intro s subs h
    cases s with
    | nil =>
      have hsub : subs = [] := by
        have h2 : (some [] : Option (List ((Nat × Nat) × List Char))) = some subs := h
        simpa using h2.symm
      subst hsub
      exact ⟨List.chain'_nil, by simp⟩
    | cons c cs =>
      cases hm : matchAt (c :: cs) with
      | none =>
        simp only [scanSubsts, hm] at h
        cases hscan : scanSubsts cache fuel cs with
        | none => rw [hscan] at h; exact Option.noConfusion h
        | some tail =>
          rw [hscan] at h
          simp only [Option.some.injEq] at h
          subst h
          obtain ⟨hch, hbnd⟩ := ih cs tail hscan
          constructor
          · rw [List.chain'_map]
            exact hch.imp (fun a b hab => by dsimp only; omega)
          · intro r hr
            obtain ⟨r0, hr0, hr0e⟩ := List.mem_map.mp hr
            have := hbnd r0 hr0
            subst hr0e
            dsimp only
            omega
      | some abr =>
        obtain ⟨a, b, rest⟩ := abr
        simp only [scanSubsts, hm] at h
        cases hsub : substNumber cache a b with
        | none => rw [hsub] at h; exact Option.noConfusion h
        | some res =>
          rw [hsub] at h
          cases hscan : scanSubsts cache fuel rest with
          | none => rw [hscan] at h; exact Option.noConfusion h
          | some tail =>
            rw [hscan] at h
            obtain ⟨hch, hbnd⟩ := ih rest tail hscan
            have hchsh : List.Chain' (fun r r2 => r.1.2 ≤ r2.1.1)
                (tail.map (fun r =>
                  ((r.1.1 + (a.length + b.length + 7),
                    r.1.2 + (a.length + b.length + 7)), r.2))) := by
              rw [List.chain'_map]
              exact hch.imp (fun x y hxy => by dsimp only; omega)
            have hbndsh : ∀ r ∈ tail.map (fun r =>
                ((r.1.1 + (a.length + b.length + 7),
                  r.1.2 + (a.length + b.length + 7)), r.2)), r.1.1 ≤ r.1.2 := by
              intro r hr
              obtain ⟨r0, hr0, hr0e⟩ := List.mem_map.mp hr
              have := hbnd r0 hr0
              subst hr0e
              dsimp only
              omega
            cases res with
            | none =>
              simp only [Option.some.injEq] at h
              subst h
              exact ⟨hchsh, hbndsh⟩
            | some repl =>
              simp only [Option.some.injEq] at h
              subst h
              constructor
              · rw [List.chain'_cons']
                refine ⟨?_, hchsh⟩
                intro r2 hr2
                have hr2m : r2 ∈ tail.map (fun r =>
                    ((r.1.1 + (a.length + b.length + 7),
                      r.1.2 + (a.length + b.length + 7)), r.2)) :=
                  List.mem_of_mem_head? hr2
                obtain ⟨r0, hr0, hr0e⟩ := List.mem_map.mp hr2m
                subst hr0e
                dsimp only
                omega
              · intro r hr
                rcases List.mem_cons.mp hr with rfl | hr
                · dsimp only
                  omega
                · exact hbndsh r hr

/-- C4: `process_issue_body` behaves as specified: the scanned ranges are
well-formed, pairwise disjoint and in ascending order (so the right-to-left
replacement keeps earlier byte offsets valid), and the scan-then-replace
pipeline equals the recursive substitution that replaces every placeholder
occurrence whose referent is found by `#<number>`, leaves an occurrence
whose referent is missing byte-for-byte untouched, and preserves all
non-placeholder text byte-for-byte. -/
theorem process_issue_body_spec (cache : GithubRepoCache) :
    (∀ (body : List Char) (subs : List ((Nat × Nat) × List Char)),
      scanSubsts cache body.length body = some subs →
      (List.Chain' (fun r r2 => r.1.2 ≤ r2.1.1) subs ∧ ∀ r ∈ subs, r.1.1 ≤ r.1.2)) ∧
    (∀ body : List Char,
      process_issue_body cache body = substitutionSpec cache body.length body) := by
  constructor
  · intro body subs h
    exact scanSubsts_sorted cache body.length body subs h
  · intro body
    have h := scan_vs_spec cache body.length body (Nat.le_refl _)
    unfold process_issue_body
    cases hscan : scanSubsts cache body.length body with
    | none =>
      rw [hscan] at h
      simpa using h
    | some subs =>
      rw [hscan] at h
      simpa using h

/-- Witness for C4: the placeholder `{{ x pr }}` against the concrete cache
scans to the single well-formed range `[0, 10)` replaced by `#17`, and the
pipeline agrees with the specification on a concrete body. -/
theorem process_issue_body_spec_witness :
    (List.Chain' (fun r r2 : (Nat × Nat) × List Char => r.1.2 ≤ r2.1.1)
        [(((0 : Nat), (10 : Nat)), '#' :: numToChars 17)] ∧
      ∀ r ∈ [(((0 : Nat), (10 : Nat)), '#' :: numToChars 17)], r.1.1 ≤ r.1.2) ∧
    process_issue_body c4cache "See {{ x pr }}".data =
      substitutionSpec c4cache ("See {{ x pr }}".data).length "See {{ x pr }}".data :=
  ⟨(process_issue_body_spec c4cache).1 "{{ x pr }}".data
      [(((0 : Nat), (10 : Nat)), '#' :: numToChars 17)] (by decide),
   (process_issue_body_spec c4cache).2 "See {{ x pr }}".data⟩

